import Mathlib

set_option maxRecDepth 16384

/-!
Shallow embedding of the regexp-to-bytecode compiler found in
`src/yara-x/src/re/compiler.rs`, together with theorems about its
location algebra, atom roll-up, alternation frame reduction, repetition
location adjustment, and the literal-sequence utilities `simplify_seq`
and `concat_seq`.

Modelling conventions:
* `usize`, `u32` and `u64` become `Nat`; where wrap-around or checked
  subtraction of unsigned machine integers matters it is made explicit.
* `i32` atom qualities become `Int`, with the explicit constant `i32Min`
  standing for `i32::MIN` (the sentinel used by `RegexpAtoms::empty`).
* `isize` arithmetic narrowed to `re::instr::Offset` (an `i16` per the
  specification) becomes `Int` with explicit range checks.
* `regex_syntax::hir::literal::Seq` and `Literal` are external to the
  repository; they are modelled from that library's documented behaviour
  as a finite list of literals or the marker `none` for an infinite
  sequence.
-/

/-- Smallest `i32` value. `RegexpAtoms::empty()` uses `i32::MIN` as its
`min_quality` sentinel (compiler.rs line 1121). -/
def i32Min : Int := -2147483648

/-- Crate constant `DESIRED_ATOM_SIZE`, declared outside the compiler
module. Modelled from the spec: the spec fixes it at 4. -/
def DESIRED_ATOM_SIZE : Nat := 4

/-- Crate constant `MAX_ATOMS_PER_REGEXP`, declared outside the compiler
module. Modelled from the spec: 4096. -/
def MAX_ATOMS_PER_REGEXP : Nat := 4096

/-- Byte size of the sentinel byte `OPCODE_PREFIX : u8` that precedes every
instruction (`size_of_val(&OPCODE_PREFIX)`). Modelled from the spec, section
on instruction encoding: one byte. -/
def opcodeMarkerSize : Nat := 1

/-- Byte size of the one-byte `SPLIT_A`/`SPLIT_B` opcode
(`size_of_val(&Instr::SPLIT_A)`, a `u8`). Modelled from the spec. -/
def splitOpcodeSize : Nat := 1

/-- Byte size of `re::instr::Offset`, an `i16` per the spec (16-bit
little-endian jump displacements). -/
def instrOffsetSize : Nat := 2

/-- `Location` (compiler.rs lines 41-46): a position in the forward code
plus a position in one of the backward code chunks. `fwd`, `bck` are
`usize` offsets and `bck_seq_id` a `u64` chunk identifier; all are
modelled as `Nat`. -/
structure Location where
  fwd : Nat
  bck_seq_id : Nat
  bck : Nat
  deriving DecidableEq

/-- `crate::compiler::Atom` (external to compiler.rs). Only the parts the
compiler reads are modelled: the literal bytes, the `exact` flag
(`is_exact`/`set_exact`) and the `quality()` score. The score is carried
as data because the scoring function lives outside this module; no claim
constrains its value. The `backtrack` field is omitted: no claim under
verification touches it. -/
structure Atom where
  bytes : List Nat
  exact : Bool
  quality : Int
  deriving DecidableEq

/-- `RegexpAtom` (compiler.rs lines 66-70): an atom plus the code location
where the Pike VM verification starts. -/
structure RegexpAtom where
  atom : Atom
  code_loc : Location
  deriving DecidableEq

/-- `RegexpAtoms` (compiler.rs lines 1110-1116): a list of `RegexpAtom`
with the quality of the worst atom and the number of exact atoms. -/
structure RegexpAtoms where
  atoms : List RegexpAtom
  min_quality : Int
  exact_atoms : Nat
  deriving DecidableEq

/-- `RegexpAtoms::empty` (compiler.rs lines 1120-1122). -/
def RegexpAtoms.empty : RegexpAtoms := ⟨[], i32Min, 0⟩

/-- `RegexpAtoms::make_inexact` (compiler.rs lines 1130-1135): zero the
exact counter and clear every atom's exact flag. -/
def RegexpAtoms.make_inexact (f : RegexpAtoms) : RegexpAtoms :=
  { f with
    exact_atoms := 0
    atoms := f.atoms.map fun ra => { ra with atom := { ra.atom with exact := false } } }

/-- The compiler's error enum (compiler.rs lines 35-39). `TooLarge` is its
single variant. -/
inductive CompileError where
  | tooLarge
  deriving DecidableEq

/-- `Offset` (compiler.rs lines 61-64): a pair of narrowed jump
displacements. -/
structure MOffset where
  fwd : Int
  bck : Int
  deriving DecidableEq

/-- Whether an `isize` value fits in `re::instr::Offset` (`i16` per the
spec): the range check behind `try_into::<i16>()`. -/
def fitsInstrOffset (x : Int) : Bool := decide (-32768 ≤ x ∧ x ≤ 32767)

/-- `isize → i16` conversion: `try_into()` as used by `Location::sub`,
with `none` standing for the `Err` that `map_err` turns into
`Error::TooLarge`. -/
def tryIntoInstrOffset (x : Int) : Option Int :=
  if fitsInstrOffset x then some x else none

/-- `Location::sub` (compiler.rs lines 49-58): componentwise subtraction
as `isize`, narrowed to the instruction offset width, failing with
`TooLarge` when a component does not fit. -/
def Location.sub (self rhs : Location) : Except CompileError MOffset :=
  match tryIntoInstrOffset ((self.fwd : Int) - (rhs.fwd : Int)) with
  | none => .error .tooLarge
  | some f =>
    match tryIntoInstrOffset ((self.bck : Int) - (rhs.bck : Int)) with
    | none => .error .tooLarge
    | some b => .ok ⟨f, b⟩

/-- Minimum quality over a non-empty atom list:
`atoms.iter().map(|atom| atom.quality()).min().unwrap()`
(compiler.rs lines 957-958). -/
def minQualOf (a : Atom) (t : List Atom) : Int :=
  t.foldl (fun m x => min m x.quality) a.quality

/-- `can_be_exact` (compiler.rs lines 950-951): the node is the top-level
HIR node (`depth == 0` after the post-visit decrement) and its subtree
contains no look-around assertion (`look_set().is_empty()`). -/
def canBeExact (depth : Nat) (hasLook : Bool) : Bool := (depth == 0) && !hasLook

/-- The atoms roll-up performed at the end of `visit_post`
(compiler.rs lines 917-981) once a non-`None` atom list has been computed:
an empty list changes nothing; otherwise the top frame `best` is replaced
by the freshly built frame when the new minimum quality is strictly
better, or equal with `can_be_exact` and strictly more exact atoms, and
the fresh frame is made inexact when `can_be_exact` is false. -/
def rollup (depth : Nat) (hasLook : Bool) (atoms : List Atom) (code_loc : Location)
    (best : RegexpAtoms) : RegexpAtoms :=
  match atoms with
  | [] => best
  | a :: t =>
    let cbe := canBeExact depth hasLook
    let mq := minQualOf a t
    let ea := (a :: t).countP (fun x => x.exact)
    if best.min_quality < mq ∨
        (mq = best.min_quality ∧ cbe = true ∧ best.exact_atoms < ea) then
      let fr : RegexpAtoms := ⟨(a :: t).map (fun x => ⟨x, code_loc⟩), mq, ea⟩
      if cbe then fr else fr.make_inexact
    else best

/-- The frame reduction in `visit_post_alternation`
(compiler.rs lines 441-448): starting from the first of the popped
frames, append each following frame's atoms and keep the minimum
`min_quality`. Note the closure leaves `exact_atoms` untouched, so the
result keeps the first frame's counter. -/
def reduceFrames (h : RegexpAtoms) : List RegexpAtoms → RegexpAtoms
  | [] => h
  | f :: t => reduceFrames ⟨h.atoms ++ f.atoms, min h.min_quality f.min_quality, h.exact_atoms⟩ t

/-- The replacement decision in `visit_post_alternation`
(compiler.rs lines 450-459): the reduced frame replaces the parent frame
when it has at most `MAX_ATOMS_PER_REGEXP` atoms and a strictly better
`min_quality`; otherwise the parent frame is kept. `h :: t` are the `n`
popped frames in stack (bottom-to-top) order. -/
def altReduceReplace (parent : RegexpAtoms) (h : RegexpAtoms) (t : List RegexpAtoms) :
    RegexpAtoms :=
  let alt := reduceFrames h t
  if alt.atoms.length ≤ MAX_ATOMS_PER_REGEXP ∧ parent.min_quality < alt.min_quality then alt
  else parent

/-- The invariant claimed for atom frames: `min_quality` is the minimum
quality across the frame's atoms (for a non-empty frame) and
`exact_atoms` counts the atoms whose exact flag is set. -/
def FrameInvariant (f : RegexpAtoms) : Prop :=
  (f.atoms ≠ [] → (f.atoms.map (fun ra => ra.atom.quality)).min? = some f.min_quality) ∧
  f.exact_atoms = f.atoms.countP (fun ra => ra.atom.exact)

instance (f : RegexpAtoms) : Decidable (FrameInvariant f) := by
  unfold FrameInvariant; infer_instance

/-- The frame that the roll-up installs for a single atom of quality 5
extracted at depth 1 (hence made inexact): this is a frame the compiler
itself produces. -/
def c3Frame : RegexpAtoms :=
  rollup 1 false [⟨[1, 2, 3, 4], true, 5⟩] ⟨0, 0, 0⟩ RegexpAtoms.empty

/-- The total adjustment added to the backward location of the atoms
extracted from the body of `e{min,}` with `min >= 2`
(compiler.rs lines 612-615):
`(min - 1) * (end.bck - start.bck) + size_of_val(&OPCODE_PREFIX)
 + size_of_val(&Instr::SPLIT_A) + size_of::<re::instr::Offset>()`. -/
def minRepAdjustment (mn : Nat) (start stop : Location) : Nat :=
  (mn - 1) * (stop.bck - start.bck) + opcodeMarkerSize + splitOpcodeSize + instrOffsetSize

/-- The atom-location fix-up loop of `visit_post_repetition` for
`e{min,}` with `min >= 2` (compiler.rs lines 617-625): every atom of the
top frame whose backward location lies in the repetition body (same
`bck_seq_id` as `start` and `bck >= start.bck`) has its `bck` increased
by the adjustment; all other atoms are untouched. -/
def minRepAdjust (mn : Nat) (start stop : Location) (f : RegexpAtoms) : RegexpAtoms :=
  { f with
    atoms := f.atoms.map fun ra =>
      if ra.code_loc.bck_seq_id = start.bck_seq_id ∧ start.bck ≤ ra.code_loc.bck then
        { ra with code_loc := { ra.code_loc with
          bck := ra.code_loc.bck + minRepAdjustment mn start stop } }
      else ra }

/-- Checked subtraction of unsigned machine integers: `a - b` on `u32`
panics in debug builds when `b > a` (modelled as `none`). -/
def u32CheckedSub (a b : Nat) : Option Nat := if b ≤ a then some (a - b) else none

/-- The iteration count of the split-emitting loop in
`visit_post_repetition` for `e{min,max}` (compiler.rs line 657):
`if min == 0 { max - 1 } else { max - min }`, with `u32` subtraction. -/
def boundedRepSplitCount (mn mx : Nat) : Option Nat :=
  if mn = 0 then u32CheckedSub mx 1 else u32CheckedSub mx mn

/-- Whether `visit_pre_repetition` (compiler.rs lines 464-521) emits a
split instruction into both streams before the repetition body is
compiled: it does for `e*`/`e*?` and for every bounded repetition with
`min == 0`. -/
def preRepEmitsSplitInstr (mn : Nat) (mx : Option Nat) : Bool :=
  match mn, mx with
  | 0, none => true
  | _, none => false
  | mn, some _ => mn == 0


/-- Model of `regex_syntax::hir::literal::Literal` (external library): a
byte string with an exactness flag. -/
structure RLit where
  bytes : List Nat
  exact : Bool
  deriving DecidableEq

/-- Model of `regex_syntax::hir::literal::Seq` (external library): either
a finite sequence of literals (`some`) or the infinite sequence
(`none`). -/
structure RSeq where
  lits : Option (List RLit)
  deriving DecidableEq

/-- `Seq::len`: number of literals, `None` for the infinite sequence. -/
def RSeq.len (s : RSeq) : Option Nat := s.lits.map List.length

/-- `Seq::max_literal_len`: length of the longest literal; `None` for the
infinite or empty sequence. -/
def RSeq.max_literal_len (s : RSeq) : Option Nat :=
  s.lits.bind (fun l => (l.map (fun x => x.bytes.length)).max?)

/-- `Seq::is_exact`: finite and every literal exact. -/
def RSeq.is_exact (s : RSeq) : Bool :=
  match s.lits with
  | none => false
  | some l => l.all (fun x => x.exact)

/-- `Seq::is_inexact`. -/
def RSeq.is_inexact (s : RSeq) : Bool := !s.is_exact

/-- `Seq::make_inexact`: clear every literal's exact flag (no effect on
the infinite sequence). -/
def RSeq.make_inexact (s : RSeq) : RSeq :=
  ⟨s.lits.map (List.map (fun x => { x with exact := false }))⟩

/-- `Literal::keep_first_bytes`: truncate to the first `n` bytes; a
literal that is actually truncated becomes inexact. -/
def RLit.keep_first (n : Nat) (x : RLit) : RLit :=
  if x.bytes.length ≤ n then x else ⟨x.bytes.take n, false⟩

/-- `Seq::keep_first_bytes`. -/
def RSeq.keep_first_bytes (s : RSeq) (n : Nat) : RSeq :=
  ⟨s.lits.map (List.map (RLit.keep_first n))⟩

/-- `Seq::dedup`, fuel-structural so it reduces by kernel evaluation: all
duplicate byte strings are merged into one literal whose exact flag is
the conjunction of the merged flags (the library marks the retained
literal inexact when the flags disagree). The library sorts before
deduplicating adjacent entries; merging whole duplicate groups keeps the
first-occurrence order instead, which no verified property observes. -/
def dedupMergeAux : Nat → List RLit → List RLit
  | _, [] => []
  | 0, _ :: _ => []
  | fuel + 1, x :: xs =>
    ⟨x.bytes, x.exact && (xs.filter (fun y => y.bytes == x.bytes)).all (fun y => y.exact)⟩ ::
      dedupMergeAux fuel (xs.filter (fun y => !(y.bytes == x.bytes)))

/-- `Seq::dedup` on the literal list. -/
def dedupMerge (l : List RLit) : List RLit := dedupMergeAux l.length l

/-- `Seq::dedup`. -/
def RSeq.dedup (s : RSeq) : RSeq := ⟨s.lits.map dedupMerge⟩

/-- `Seq::max_cross_len`: the size the cross product would have, `None`
when either sequence is infinite. -/
def RSeq.max_cross_len (s other : RSeq) : Option Nat :=
  match s.lits, other.lits with
  | some a, some b => some (a.length * b.length)
  | _, _ => none

/-- `Seq::cross_forward`: inexact literals of `self` pass through
unchanged; each exact literal is extended with every literal of `other`
(the extension is exact only when the appended literal is); an infinite
`other` makes the result infinite; the result is deduplicated. -/
def RSeq.cross_forward (s other : RSeq) : RSeq :=
  match other.lits with
  | none => ⟨none⟩
  | some l2 =>
    match s.lits with
    | none => s
    | some l1 =>
      RSeq.dedup ⟨some (l1.flatMap (fun x =>
        if x.exact then l2.map (fun y => ⟨x.bytes ++ y.bytes, y.exact⟩) else [x]))⟩

/-- `Seq::singleton`. -/
def RSeq.singleton (x : RLit) : RSeq := ⟨some [x]⟩

/-- Longest common prefix of two byte strings. -/
def commonPfx : List Nat → List Nat → List Nat
  | a :: as, b :: bs => if a = b then a :: commonPfx as bs else []
  | _, _ => []

/-- `Seq::longest_common_prefix` (renamed): `None` for the infinite or
empty sequence, otherwise the longest byte string that is a prefix of
every literal. -/
def RSeq.longest_common_pfx (s : RSeq) : Option (List Nat) :=
  match s.lits with
  | none => none
  | some [] => none
  | some (x :: t) => some (t.foldl (fun p y => commonPfx p y.bytes) x.bytes)

/-- `simplify_seq` (compiler.rs lines 1014-1034): when the sequence has
exactly 256 literals, the longest literal length exceeds 1, and the
longest common prefix is one byte shorter than the longest literal,
collapse to a single inexact literal holding just that prefix; otherwise
return the sequence unchanged. -/
def simplify_seq (seq : RSeq) : RSeq :=
  match seq.len with
  | some 256 =>
    match seq.max_literal_len with
    | some maxLen =>
      if 1 < maxLen then
        match RSeq.longest_common_pfx seq with
        | some p => if p.length = maxLen - 1 then RSeq.singleton ⟨p, false⟩ else seq
        | none => seq
      else seq
    | none => seq
  | _ => seq

/-- The exact condition under which `simplify_seq` collapses its
argument. -/
def simplifyTriggers (seq : RSeq) : Bool :=
  match seq.len, seq.max_literal_len, RSeq.longest_common_pfx seq with
  | some 256, some m, some p => decide (1 < m) && (p.length == m - 1)
  | _, _, _ => false

/-- The early bail-out of `concat_seq` (compiler.rs lines 1041-1051):
give up when the first sequence is infinite, or has exactly 256 literals
whose maximum length matches `Some(1) | None`. -/
def concatSeqBail : List RSeq → Bool
  | [] => false
  | first :: _ =>
    match first.len with
    | none => true
    | some n =>
      if n = 256 then (first.max_literal_len == some 1) || (first.max_literal_len == none)
      else false

/-- The cross-product loop of `concat_seq` (compiler.rs lines 1053-1088)
over the first `DESIRED_ATOM_SIZE` sequences: stop when the next cross
product would be infinite or exceed `MAX_ATOMS_PER_REGEXP`, when the last
taken sequence is a 256-literal sequence of single bytes, or when the
running result is already inexact; otherwise cross and count the
sequence as added. -/
def concatSeqLoop : RSeq → Nat → List RSeq → RSeq × Nat
  | result, added, [] => (result, added)
  | result, added, seq :: rest =>
    match RSeq.max_cross_len result seq with
    | none => (result, added)
    | some len =>
      if MAX_ATOMS_PER_REGEXP < len then (result, added)
      else if rest.isEmpty && (seq.len == some 256) && (seq.max_literal_len == some 1) then
        (result, added)
      else if RSeq.is_inexact result then (result, added)
      else concatSeqLoop (RSeq.cross_forward result seq) (added + 1) rest

/-- The accumulator `concat_seq` starts from:
`Seq::singleton(Literal::exact(vec![]))`. -/
def concatSeqInit : RSeq := RSeq.singleton ⟨[], true⟩

/-- `concat_seq` (compiler.rs lines 1036-1102): bail out early, run the
cross-product loop, mark the result inexact when not every input
sequence was added, then trim every literal to `DESIRED_ATOM_SIZE`
bytes, deduplicate, and simplify. -/
def concat_seq (seqs : List RSeq) : Option RSeq :=
  if concatSeqBail seqs then none
  else
    let rs := concatSeqLoop concatSeqInit 0 (seqs.take DESIRED_ATOM_SIZE)
    let r1 := if rs.2 < seqs.length then rs.1.make_inexact else rs.1
    some (simplify_seq ((r1.keep_first_bytes DESIRED_ATOM_SIZE).dedup))

/-- The running results observed right after each cross-product step of
`concat_seq`'s loop, in order. -/
def concatSeqStates : RSeq → List RSeq → List RSeq
  | _, [] => []
  | result, seq :: rest =>
    match RSeq.max_cross_len result seq with
    | none => []
    | some len =>
      if MAX_ATOMS_PER_REGEXP < len then []
      else if rest.isEmpty && (seq.len == some 256) && (seq.max_literal_len == some 1) then
        []
      else if RSeq.is_inexact result then []
      else
        RSeq.cross_forward result seq ::
          concatSeqStates (RSeq.cross_forward result seq) rest

/-- A sequence is trimmed and deduplicated: every literal has at most
`DESIRED_ATOM_SIZE` bytes and no two literals have the same bytes
(vacuously true for the infinite sequence). -/
def RSeq.TrimmedDeduped : RSeq → Prop
  | ⟨none⟩ => True
  | ⟨some ls⟩ =>
    (∀ l ∈ ls, l.bytes.length ≤ DESIRED_ATOM_SIZE) ∧
      ls.Pairwise (fun a b => a.bytes ≠ b.bytes)

instance : (s : RSeq) → Decidable s.TrimmedDeduped
  | ⟨none⟩ => isTrue trivial
  | ⟨some ls⟩ =>
    inferInstanceAs (Decidable ((∀ l ∈ ls, l.bytes.length ≤ DESIRED_ATOM_SIZE) ∧
      ls.Pairwise (fun a b : RLit => a.bytes ≠ b.bytes)))

/-- Every literal of the sequence carries a cleared exact flag
(vacuously true for the infinite sequence). -/
def RSeq.AllInexact : RSeq → Prop
  | ⟨none⟩ => True
  | ⟨some ls⟩ => ∀ l ∈ ls, l.exact = false

instance : (s : RSeq) → Decidable s.AllInexact
  | ⟨none⟩ => isTrue trivial
  | ⟨some ls⟩ => inferInstanceAs (Decidable (∀ l ∈ ls, l.exact = false))

/-- First input sequence of the C5 counterexample: one exact three-byte
literal. -/
def c5SeqA : RSeq := ⟨some [⟨[1, 2, 3], true⟩]⟩

/-- Second input sequence of the C5 counterexample: one exact three-byte
literal. -/
def c5SeqB : RSeq := ⟨some [⟨[4, 5, 6], true⟩]⟩

/-- C6 counterexample input: 256 copies of the exact empty literal, so
`len` is 256 and `max_literal_len` is 0. -/
def c6Seq : RSeq := ⟨some (List.replicate 256 ⟨[], true⟩)⟩

/-- C7 counterexample input: 256 copies of the exact literal `[1, 2]`:
every literal shares the prefix `[1]` of length `max_len - 1`, yet the
longest common prefix is `[1, 2]` itself. -/
def c7Seq : RSeq := ⟨some (List.replicate 256 ⟨[1, 2], true⟩)⟩

/-- C7 witness input: the 256 distinct exact literals `[9, i]`, whose
longest common prefix `[9]` has length `max_len - 1 = 1`. -/
def c7GoodSeq : RSeq := ⟨some ((List.range 256).map (fun i => ⟨[9, i], true⟩))⟩

/-- The HIR shape that drives the frame (`best_atoms_stack`) and
`zero_rep_depth` bookkeeping of the traversal (`visit_pre`,
`visit_alternation_in`, `visit_concat_in`, `visit_post`).  `leaf` covers
`Empty`, `Literal`, `Class` and `Look` (which neither push frames nor
touch `zero_rep_depth` before the roll-up guard); a repetition carries
`zeroMin = (min == 0)` (the pre-visit increments and the post-visit
decrements `zero_rep_depth` exactly for those) and `adjusts = (min >= 2)`
(the post-visit rewrites the backward locations of the top frame's atoms
exactly for those). -/
inductive MHir where
  | leaf (lk : Bool)
  | capture (child : MHir)
  | concat (children : List MHir)
  | alternation (first : MHir) (rest : List MHir)
  | repetition (zeroMin adjusts : Bool) (child : MHir)

mutual

/-- Whether the subtree contains a look-around assertion
(`hir.properties().look_set().is_empty()` negated); for a `leaf` this is
its own flag. -/
def MHir.hasLook : MHir → Bool
  | .leaf lk => lk
  | .capture c => c.hasLook
  | .concat cs => MHir.anyLook cs
  | .alternation c cs => c.hasLook || MHir.anyLook cs
  | .repetition _ _ c => c.hasLook

/-- Whether any tree of the list contains a look-around assertion. -/
def MHir.anyLook : List MHir → Bool
  | [] => false
  | c :: t => c.hasLook || MHir.anyLook t

end

/-- The traversal state relevant to the claims about frames: the
`best_atoms_stack` (head is the top), `zero_rep_depth`, `depth`, and a
counter numbering the post-visits (used to index the oracles below). -/
structure WSt where
  stack : List RegexpAtoms
  zrd : Nat
  depth : Nat
  ctr : Nat
  deriving DecidableEq

/-- The inputs the traversal receives from outside the frame model,
indexed by post-visit number: the atom list and code location the node
compiler computes (literal extraction, `best_atom_from_slice`, emitted
locations), and the location rewriting that the concat splice fix-up
(compiler.rs lines 359-368) or the repetition adjustment (lines 617-625,
671-679) applies to the top frame's atoms.  Quantifying over all oracles
covers every behaviour of those components. -/
structure PostOracle where
  exAtoms : Nat → Option (List Atom)
  exLoc : Nat → Location
  reloc : Nat → Location → Location

/-- Apply a location rewriting to every atom of the top frame (the
stack's head), as the concat and repetition post-visits do. -/
def mapTopFrame (g : Location → Location) : List RegexpAtoms → List RegexpAtoms
  | [] => []
  | f :: rest =>
    { f with atoms := f.atoms.map (fun ra => { ra with code_loc := g ra.code_loc }) } :: rest

/-- Apply the roll-up to the top frame of the stack. -/
def rollupTop (depth : Nat) (hasLk : Bool) (atoms : List Atom) (loc : Location) :
    List RegexpAtoms → List RegexpAtoms
  | [] => []
  | best :: rest => rollup depth hasLk atoms loc best :: rest

/-- The frame step of `visit_post_alternation`: pop the top `n` frames
(`split_off`), reduce them in bottom-to-top order, and replace the new
top (parent) frame when the reduced frame is better. -/
def altPostFrames (n : Nat) (stack : List RegexpAtoms) : List RegexpAtoms :=
  match (stack.take n).reverse, stack.drop n with
  | h :: t, parent :: below => altReduceReplace parent h t :: below
  | _, rest => rest

/-- The tail of every `visit_post` branch: bump the post-visit counter,
return early when `zero_rep_depth > 0`, otherwise run the atoms roll-up
on the top frame with the oracle-provided atoms and location. -/
def guardRollup (o : PostOracle) (hasLk : Bool) (st : WSt) : WSt :=
  let i := st.ctr
  let st1 : WSt := { st with ctr := st.ctr + 1 }
  if 0 < st1.zrd then st1
  else
    match o.exAtoms i with
    | none => st1
    | some atoms => { st1 with stack := rollupTop st1.depth hasLk atoms (o.exLoc i) st1.stack }

mutual

/-- The frame and `zero_rep_depth` dynamics of one full visit of a node
(`visit_pre`, the children's visits with the `in`-hooks, `visit_post`),
mirroring compiler.rs lines 699-1011: `depth` is incremented at pre and
decremented at post; an alternation pushes one fresh empty frame at pre
and one per `visit_alternation_in`, and its post-visit reduces those
frames before the guard; a zero-min repetition increments
`zero_rep_depth` at pre and decrements it in its post-visit before the
guard; concat and min-2 repetition post-visits rewrite the top frame's
atom locations before the guard. -/
def walk (o : PostOracle) : MHir → WSt → WSt
  | .leaf lk, st =>
    let st1 : WSt := { st with depth := st.depth + 1 }
    let st2 : WSt := { st1 with depth := st1.depth - 1 }
    guardRollup o lk st2
  | .capture c, st =>
    let st1 : WSt := { st with depth := st.depth + 1 }
    let st2 := walk o c st1
    let st3 : WSt := { st2 with depth := st2.depth - 1 }
    guardRollup o c.hasLook st3
  | .concat cs, st =>
    let st1 : WSt := { st with depth := st.depth + 1 }
    let st2 := walkSeq o cs st1
    let st3 : WSt := { st2 with depth := st2.depth - 1 }
    let st4 : WSt := { st3 with stack := mapTopFrame (o.reloc st3.ctr) st3.stack }
    guardRollup o (MHir.anyLook cs) st4
  | .alternation c cs, st =>
    let st1 : WSt := { st with depth := st.depth + 1, stack := RegexpAtoms.empty :: st.stack }
    let st2 := walk o c st1
    let st3 := walkAlts o cs st2
    let st4 : WSt := { st3 with depth := st3.depth - 1 }
    let st5 : WSt := { st4 with stack := altPostFrames (cs.length + 1) st4.stack }
    guardRollup o (c.hasLook || MHir.anyLook cs) st5
  | .repetition zm adj c, st =>
    let st1 : WSt := ⟨st.stack, if zm then st.zrd + 1 else st.zrd, st.depth + 1, st.ctr⟩
    let st2 := walk o c st1
    let st3 : WSt := { st2 with depth := st2.depth - 1 }
    let st4 : WSt := ⟨if adj then mapTopFrame (o.reloc st3.ctr) st3.stack else st3.stack,
      if zm then st3.zrd - 1 else st3.zrd, st3.depth, st3.ctr⟩
    guardRollup o c.hasLook st4

/-- Visit the children of a concat in order (`visit_concat_in` pushes
bookmarks and backward chunks only — no frame effect). -/
def walkSeq (o : PostOracle) : List MHir → WSt → WSt
  | [], st => st
  | c :: t, st => walkSeq o t (walk o c st)

/-- Visit the alternatives after the first: each `visit_alternation_in`
pushes a fresh empty frame before the next alternative is visited. -/
def walkAlts (o : PostOracle) : List MHir → WSt → WSt
  | [], st => st
  | c :: t, st =>
    walkAlts o t (walk o c { st with stack := RegexpAtoms.empty :: st.stack })

end

/-- Two frames agree on everything except the atoms' code locations:
same atom payloads (in order), same `min_quality`, same `exact_atoms`. -/
def FrameSim (f g : RegexpAtoms) : Prop :=
  f.atoms.map (fun ra => ra.atom) = g.atoms.map (fun ra => ra.atom) ∧
  f.min_quality = g.min_quality ∧ f.exact_atoms = g.exact_atoms

instance (f g : RegexpAtoms) : Decidable (FrameSim f g) := by
  unfold FrameSim; infer_instance

/-- Componentwise `FrameSim` on whole stacks. -/
def StackSim : List RegexpAtoms → List RegexpAtoms → Prop
  | [], [] => True
  | f :: s, g :: t => FrameSim f g ∧ StackSim s t
  | _, _ => False

instance instDecStackSim : (s t : List RegexpAtoms) → Decidable (StackSim s t)
  | [], [] => isTrue trivial
  | [], _ :: _ => isFalse (fun h => h)
  | _ :: _, [] => isFalse (fun h => h)
  | f :: s, g :: t =>
    have : Decidable (StackSim s t) := instDecStackSim s t
    inferInstanceAs (Decidable (FrameSim f g ∧ StackSim s t))

/-- Every frame on the stack has a `min_quality` no smaller than the
`i32::MIN` sentinel — true of every frame the compiler builds, since
qualities are `i32` values. -/
def StackWF (s : List RegexpAtoms) : Prop := ∀ f ∈ s, i32Min ≤ f.min_quality

/-- An oracle for the C10 witness: no atoms are ever extracted and no
location is rewritten. -/
def trivOracle : PostOracle := ⟨fun _ => none, fun _ => ⟨0, 0, 0⟩, fun _ l => l⟩

instance (s : List RegexpAtoms) : Decidable (StackWF s) := by
  unfold StackWF; infer_instance

/-! Theorems. -/
/-- C1: at a post-visit that yields the non-empty atom list `a :: t`, the
roll-up replaces the top frame `best` exactly when the new minimum quality
is strictly greater than `best.min_quality`, or the two are equal,
`can_be_exact` holds, and the new frame has strictly more exact atoms;
and when the replacement happens with `can_be_exact` false, every atom of
the installed frame has its exact flag cleared (and the exact counter is
zero). -/
theorem claim_c1 (depth : Nat) (hasLook : Bool) (a : Atom) (t : List Atom)
    (loc : Location) (best : RegexpAtoms) :
    (¬(best.min_quality < minQualOf a t ∨
        (minQualOf a t = best.min_quality ∧ canBeExact depth hasLook = true ∧
          best.exact_atoms < (a :: t).countP (fun x => x.exact))) →
      rollup depth hasLook (a :: t) loc best = best) ∧
    ((best.min_quality < minQualOf a t ∨
        (minQualOf a t = best.min_quality ∧ canBeExact depth hasLook = true ∧
          best.exact_atoms < (a :: t).countP (fun x => x.exact))) →
      rollup depth hasLook (a :: t) loc best =
        (if canBeExact depth hasLook then
          (⟨(a :: t).map (fun x => ⟨x, loc⟩), minQualOf a t,
            (a :: t).countP (fun x => x.exact)⟩ : RegexpAtoms)
        else
          RegexpAtoms.make_inexact
            ⟨(a :: t).map (fun x => ⟨x, loc⟩), minQualOf a t,
              (a :: t).countP (fun x => x.exact)⟩)) ∧
    ((best.min_quality < minQualOf a t ∨
        (minQualOf a t = best.min_quality ∧ canBeExact depth hasLook = true ∧
          best.exact_atoms < (a :: t).countP (fun x => x.exact))) →
      canBeExact depth hasLook = false →
      (∀ ra ∈ (rollup depth hasLook (a :: t) loc best).atoms, ra.atom.exact = false) ∧
      (rollup depth hasLook (a :: t) loc best).exact_atoms = 0) := by
  refine ⟨?_, ?_, ?_⟩
  · intro hno
    simp only [rollup]
    rw [if_neg hno]
  · intro hyes
    simp only [rollup]
    rw [if_pos hyes]
  · intro hyes hcbe
    simp only [rollup]
    rw [if_pos hyes, if_neg (by simp [hcbe])]
    constructor
    · intro ra hra
      simp only [RegexpAtoms.make_inexact, List.map_map, List.mem_map] at hra
      obtain ⟨x, _, rfl⟩ := hra
      rfl
    · rfl

/-- Witness for C1 at a concrete input: one exact atom of quality 5
against the empty frame, at depth 1 (so `can_be_exact` is false). -/
theorem claim_c1_witness :
    (RegexpAtoms.empty.min_quality < minQualOf ⟨[1, 2, 3, 4], true, 5⟩ [] ∨
      (minQualOf ⟨[1, 2, 3, 4], true, 5⟩ [] = RegexpAtoms.empty.min_quality ∧
        canBeExact 1 false = true ∧
        RegexpAtoms.empty.exact_atoms <
          ([⟨[1, 2, 3, 4], true, 5⟩] : List Atom).countP (fun x => x.exact))) ∧
    canBeExact 1 false = false ∧
    ((∀ ra ∈ (rollup 1 false [⟨[1, 2, 3, 4], true, 5⟩] ⟨0, 0, 0⟩ RegexpAtoms.empty).atoms,
        ra.atom.exact = false) ∧
      (rollup 1 false [⟨[1, 2, 3, 4], true, 5⟩] ⟨0, 0, 0⟩ RegexpAtoms.empty).exact_atoms = 0) := by
  refine ⟨by decide, by decide, ?_⟩
  exact (claim_c1 1 false ⟨[1, 2, 3, 4], true, 5⟩ [] ⟨0, 0, 0⟩ RegexpAtoms.empty).2.2
    (by decide) (by decide)

/-- C2: `Location::sub` returns the componentwise difference computed in
unbounded signed arithmetic exactly when both components fit the
instruction offset width, returns `TooLarge` exactly otherwise, and
`TooLarge` is the only value of the compiler's error type. -/
theorem claim_c2 (a b : Location) :
    (Location.sub a b = .ok ⟨(a.fwd : Int) - (b.fwd : Int), (a.bck : Int) - (b.bck : Int)⟩ ↔
      fitsInstrOffset ((a.fwd : Int) - (b.fwd : Int)) = true ∧
        fitsInstrOffset ((a.bck : Int) - (b.bck : Int)) = true) ∧
    (Location.sub a b = .error .tooLarge ↔
      ¬(fitsInstrOffset ((a.fwd : Int) - (b.fwd : Int)) = true ∧
        fitsInstrOffset ((a.bck : Int) - (b.bck : Int)) = true)) ∧
    (∀ e : CompileError, e = CompileError.tooLarge) := by
  rcases h1 : fitsInstrOffset ((a.fwd : Int) - (b.fwd : Int)) with _ | _ <;>
    rcases h2 : fitsInstrOffset ((a.bck : Int) - (b.bck : Int)) with _ | _ <;>
      refine ⟨?_, ?_, fun e => by cases e; rfl⟩ <;>
        simp [Location.sub, tryIntoInstrOffset, h1, h2]

theorem foldl_min_init (l : List Int) (a b : Int) :
    l.foldl min (min a b) = min a (l.foldl min b) := by
  induction l generalizing b with
  | nil => rfl
  | cons c l ih =>
    simp only [List.foldl_cons]
    rw [min_assoc, ih]

theorem min?_cons_eq (x : Int) (xs : List Int) : (x :: xs).min? = some (xs.foldl min x) := rfl

theorem min?_append {l1 l2 : List Int} {a b : Int}
    (ha : l1.min? = some a) (hb : l2.min? = some b) :
    (l1 ++ l2).min? = some (min a b) := by
  cases l1 with
  | nil => simp [List.min?] at ha
  | cons x xs =>
    cases l2 with
    | nil => simp [List.min?] at hb
    | cons y ys =>
      rw [min?_cons_eq] at ha
      rw [min?_cons_eq] at hb
      obtain rfl : xs.foldl min x = a := by simpa using ha
      obtain rfl : ys.foldl min y = b := by simpa using hb
      rw [List.cons_append, min?_cons_eq, List.foldl_append, List.foldl_cons,
        foldl_min_init]

theorem min?_map_cons (f : Atom → Int) (a : Atom) (t : List Atom) :
    ((a :: t).map f).min? = some (t.foldl (fun m x => min m (f x)) (f a)) := by
  rw [List.map_cons, min?_cons_eq, List.foldl_map]

theorem min?_map_atoms (a : Atom) (t : List Atom) (loc : Location) :
    (((a :: t).map (fun x => (⟨x, loc⟩ : RegexpAtom))).map (fun ra => ra.atom.quality)).min?
      = some (minQualOf a t) := by
  rw [List.map_map]
  exact min?_map_cons (fun x => x.quality) a t

theorem rollup_invariant (depth : Nat) (hasLook : Bool) (atoms : List Atom)
    (loc : Location) (best : RegexpAtoms) (hb : FrameInvariant best) :
    FrameInvariant (rollup depth hasLook atoms loc best) := by
  cases atoms with
  | nil => exact hb
  | cons a t =>
    simp only [rollup]
    split
    · split
      · constructor
        · intro _
          exact min?_map_atoms a t loc
        · simp only [List.countP_map]
          rfl
      · constructor
        · intro _
          simp only [RegexpAtoms.make_inexact, List.map_map, Function.comp_def]
          have := min?_map_cons (fun x => x.quality) a t
          simpa [minQualOf] using this
        · simp only [RegexpAtoms.make_inexact]
          symm
          rw [List.countP_eq_zero]
          intro ra hra
          simp only [List.map_map, List.mem_map] at hra
          obtain ⟨x, _, rfl⟩ := hra
          simp
    · exact hb

theorem reduce_invariant (h : RegexpAtoms) (t : List RegexpAtoms)
    (hinv : FrameInvariant h) (hne : h.atoms ≠ [])
    (ht : ∀ f ∈ t, FrameInvariant f ∧ f.atoms ≠ [] ∧
      f.atoms.countP (fun ra => ra.atom.exact) = 0) :
    FrameInvariant (reduceFrames h t) := by
  induction t generalizing h with
  | nil => exact hinv
  | cons f t ih =>
    obtain ⟨hf, hfne, hf0⟩ := ht f (by simp)
    simp only [reduceFrames]
    apply ih
    · constructor
      · intro _
        simp only [List.map_append]
        exact min?_append (hinv.1 hne) (hf.1 hfne)
      · simp only [List.countP_append, ← hinv.2, hf0]
        rfl
    · simp [hne]
    · intro g hg
      exact ht g (by simp [hg])

/-- C3 amended: frames built by the atoms roll-up always satisfy the
bookkeeping invariant, and the alternation frame reduction preserves it
provided every reduced frame is non-empty and the frames after the first
contain no exact atoms (both hold for the frames the alternation pushes,
whose roll-ups happen at `depth > 0` and therefore store only inexact
atoms); with an empty alternative frame in the mix the reduced
`min_quality` is the `i32::MIN` sentinel, which can lie strictly below
the minimum quality across the reduced frame's atoms. -/
theorem claim_c3 :
    (∀ (depth : Nat) (hasLook : Bool) (atoms : List Atom) (loc : Location)
        (best : RegexpAtoms), FrameInvariant best →
      FrameInvariant (rollup depth hasLook atoms loc best)) ∧
    (∀ (h : RegexpAtoms) (t : List RegexpAtoms),
      FrameInvariant h → h.atoms ≠ [] →
      (∀ f ∈ t, FrameInvariant f ∧ f.atoms ≠ [] ∧
        f.atoms.countP (fun ra => ra.atom.exact) = 0) →
      FrameInvariant (reduceFrames h t)) :=
  ⟨rollup_invariant, reduce_invariant⟩

/-- C3 counterexample: reducing the frames popped at an alternation
post-visit when the first alternative's frame is still empty (exactly
`RegexpAtoms::empty`, as pushed by `visit_pre_alternation`) and the
second alternative's frame holds one atom of quality 5 yields a frame
whose `min_quality` is the `i32::MIN` sentinel even though the minimum
quality across its atoms is 5 — the invariant does not hold for every
frame produced by the reduction. -/
theorem claim_c3_counterexample :
    FrameInvariant RegexpAtoms.empty ∧ FrameInvariant c3Frame ∧
    ¬FrameInvariant (reduceFrames RegexpAtoms.empty [c3Frame]) ∧
    (reduceFrames RegexpAtoms.empty [c3Frame]).min_quality = i32Min ∧
    ((reduceFrames RegexpAtoms.empty [c3Frame]).atoms.map
        (fun ra => ra.atom.quality)).min? = some 5 := by
  decide

/-- Witness for C3 at concrete inputs: the roll-up part applied with an
exact atom at the root, and the reduction part applied to two singleton
frames that satisfy the invariant. -/
theorem claim_c3_witness :
    FrameInvariant RegexpAtoms.empty ∧
    FrameInvariant (rollup 0 false [⟨[7], true, 3⟩] ⟨0, 0, 0⟩ RegexpAtoms.empty) ∧
    (FrameInvariant c3Frame ∧ c3Frame.atoms ≠ [] ∧
      (∀ f ∈ ([c3Frame] : List RegexpAtoms), FrameInvariant f ∧ f.atoms ≠ [] ∧
        f.atoms.countP (fun ra => ra.atom.exact) = 0)) ∧
    FrameInvariant (reduceFrames c3Frame [c3Frame]) := by
  refine ⟨by decide, claim_c3.1 0 false [⟨[7], true, 3⟩] ⟨0, 0, 0⟩ RegexpAtoms.empty (by decide),
    ⟨by decide, by decide, by decide⟩, claim_c3.2 c3Frame [c3Frame] (by decide) (by decide) (by decide)⟩

/-- C4: the reduction at an alternation post-visit concatenates the
popped frames' atom lists (in stack order) and takes the minimum of
their `min_quality` values, and the reduced frame replaces the parent
frame exactly when its atom count is at most `MAX_ATOMS_PER_REGEXP` and
its `min_quality` is strictly greater than the parent's; otherwise the
parent frame is kept. -/
theorem claim_c4 (parent h : RegexpAtoms) (t : List RegexpAtoms) :
    ((reduceFrames h t).atoms = h.atoms ++ (t.map (fun f => f.atoms)).flatten) ∧
    ((reduceFrames h t).min_quality =
      t.foldl (fun m f => min m f.min_quality) h.min_quality) ∧
    ((reduceFrames h t).atoms.length ≤ MAX_ATOMS_PER_REGEXP ∧
        parent.min_quality < (reduceFrames h t).min_quality →
      altReduceReplace parent h t = reduceFrames h t) ∧
    (¬((reduceFrames h t).atoms.length ≤ MAX_ATOMS_PER_REGEXP ∧
        parent.min_quality < (reduceFrames h t).min_quality) →
      altReduceReplace parent h t = parent) := by
  refine ⟨?_, ?_, ?_, ?_⟩
  · induction t generalizing h with
    | nil => simp [reduceFrames]
    | cons f t ih =>
      simp only [reduceFrames, ih, List.map_cons, List.flatten_cons, List.append_assoc]
  · induction t generalizing h with
    | nil => rfl
    | cons f t ih => simp only [reduceFrames, ih, List.foldl_cons]
  · intro hc
    simp only [altReduceReplace]
    rw [if_pos hc]
  · intro hc
    simp only [altReduceReplace]
    rw [if_neg hc]

/-- Witness for C4 at a concrete input: two singleton frames whose
reduction beats an empty parent frame. -/
theorem claim_c4_witness :
    ((reduceFrames ⟨[⟨⟨[1], false, 4⟩, ⟨0, 0, 0⟩⟩], 4, 0⟩
        [⟨[⟨⟨[2], false, 7⟩, ⟨0, 0, 0⟩⟩], 7, 0⟩]).atoms.length ≤ MAX_ATOMS_PER_REGEXP ∧
      RegexpAtoms.empty.min_quality <
        (reduceFrames ⟨[⟨⟨[1], false, 4⟩, ⟨0, 0, 0⟩⟩], 4, 0⟩
          [⟨[⟨⟨[2], false, 7⟩, ⟨0, 0, 0⟩⟩], 7, 0⟩]).min_quality) ∧
    altReduceReplace RegexpAtoms.empty ⟨[⟨⟨[1], false, 4⟩, ⟨0, 0, 0⟩⟩], 4, 0⟩
        [⟨[⟨⟨[2], false, 7⟩, ⟨0, 0, 0⟩⟩], 7, 0⟩] =
      reduceFrames ⟨[⟨⟨[1], false, 4⟩, ⟨0, 0, 0⟩⟩], 4, 0⟩
        [⟨[⟨⟨[2], false, 7⟩, ⟨0, 0, 0⟩⟩], 7, 0⟩] := by
  refine ⟨by decide, ?_⟩
  exact (claim_c4 RegexpAtoms.empty ⟨[⟨⟨[1], false, 4⟩, ⟨0, 0, 0⟩⟩], 4, 0⟩
    [⟨[⟨⟨[2], false, 7⟩, ⟨0, 0, 0⟩⟩], 7, 0⟩]).2.2.1 (by decide)

/-- C8: for `e{min,}` with `min >= 2`, the post-visit fix-up increases
the backward location of exactly the atoms extracted from the repetition
body (same `bck_seq_id` as `start`, `bck >= start.bck`) by
`(min - 1) * (end.bck - start.bck)` plus the sizes of the opcode marker,
the split opcode and one offset, and leaves every other atom's location
(and every atom's payload) unchanged. -/
theorem claim_c8 (mn : Nat) (start stop : Location) (f : RegexpAtoms)
    (hmn : 2 ≤ mn) (i : Nat) (h1 : i < f.atoms.length)
    (h2 : i < (minRepAdjust mn start stop f).atoms.length) :
    (minRepAdjust mn start stop f).atoms.length = f.atoms.length ∧
    (f.atoms[i].code_loc.bck_seq_id = start.bck_seq_id ∧
        start.bck ≤ f.atoms[i].code_loc.bck →
      (minRepAdjust mn start stop f).atoms[i].atom = f.atoms[i].atom ∧
      (minRepAdjust mn start stop f).atoms[i].code_loc.fwd = f.atoms[i].code_loc.fwd ∧
      (minRepAdjust mn start stop f).atoms[i].code_loc.bck_seq_id =
        f.atoms[i].code_loc.bck_seq_id ∧
      (minRepAdjust mn start stop f).atoms[i].code_loc.bck =
        f.atoms[i].code_loc.bck +
          ((mn - 1) * (stop.bck - start.bck) +
            opcodeMarkerSize + splitOpcodeSize + instrOffsetSize)) ∧
    (¬(f.atoms[i].code_loc.bck_seq_id = start.bck_seq_id ∧
        start.bck ≤ f.atoms[i].code_loc.bck) →
      (minRepAdjust mn start stop f).atoms[i] = f.atoms[i]) := by
  refine ⟨by simp [minRepAdjust], ?_, ?_⟩
  · intro hc
    simp only [minRepAdjust, List.getElem_map]
    rw [if_pos hc]
    exact ⟨rfl, rfl, rfl, rfl⟩
  · intro hc
    simp only [minRepAdjust, List.getElem_map]
    rw [if_neg hc]

/-- Witness for C8 at a concrete input: a two-atom frame in which only
the first atom lies in the repetition body, with `min = 2` and a body
spanning backward offsets 10 to 16. -/
theorem claim_c8_witness :
    2 ≤ 2 ∧ (0 : Nat) < 2 ∧
    ((minRepAdjust 2 ⟨0, 3, 10⟩ ⟨0, 3, 16⟩
        ⟨[⟨⟨[1], false, 4⟩, ⟨5, 3, 12⟩⟩, ⟨⟨[2], false, 4⟩, ⟨5, 2, 12⟩⟩], 4, 0⟩).atoms[0].code_loc.bck =
      (⟨[⟨⟨[1], false, 4⟩, ⟨5, 3, 12⟩⟩, ⟨⟨[2], false, 4⟩, ⟨5, 2, 12⟩⟩], 4, 0⟩ :
        RegexpAtoms).atoms[0].code_loc.bck + ((2 - 1) * (16 - 10) +
          opcodeMarkerSize + splitOpcodeSize + instrOffsetSize)) := by
  refine ⟨by decide, by decide, ?_⟩
  exact ((claim_c8 2 ⟨0, 3, 10⟩ ⟨0, 3, 16⟩
    ⟨[⟨⟨[1], false, 4⟩, ⟨5, 3, 12⟩⟩, ⟨⟨[2], false, 4⟩, ⟨5, 2, 12⟩⟩], 4, 0⟩
    (by decide) 0 (by decide) (by decide)).2.1 (by decide)).2.2.2

/-- C9 evaluated at the failing input: for the repetition `e{0,0}` the
pre-visit emits a split instruction into both instruction streams (so
the emitted bodies cannot consist of `MATCH` alone), and the post-visit
loop bound `max - 1` is the checked `u32` subtraction `0 - 1`, which has
no value (a panic in debug builds, a wrap-around to `2^32 - 1` split
emissions in release builds). Compilation of `e{0,0}` therefore does not
succeed with empty bodies, contradicting the claim. -/
theorem claim_c9 :
    boundedRepSplitCount 0 0 = none ∧ preRepEmitsSplitInstr 0 (some 0) = true := by
  decide

theorem dedupMergeAux_bytes {fuel : Nat} {xs : List RLit} {l : RLit}
    (hl : l ∈ dedupMergeAux fuel xs) : ∃ x ∈ xs, l.bytes = x.bytes := by
  induction fuel generalizing xs with
  | zero =>
    cases xs with
    | nil => simp [dedupMergeAux] at hl
    | cons x t => simp [dedupMergeAux] at hl
  | succ fuel ih =>
    cases xs with
    | nil => simp [dedupMergeAux] at hl
    | cons x t =>
      simp only [dedupMergeAux, List.mem_cons] at hl
      rcases hl with rfl | hl
      · exact ⟨x, by simp⟩
      · obtain ⟨y, hy, hby⟩ := ih hl
        exact ⟨y, List.mem_cons_of_mem x (List.mem_of_mem_filter hy), hby⟩

theorem dedupMergeAux_inexact {fuel : Nat} {xs : List RLit}
    (hx : ∀ y ∈ xs, y.exact = false) :
    ∀ l ∈ dedupMergeAux fuel xs, l.exact = false := by
  induction fuel generalizing xs with
  | zero =>
    cases xs with
    | nil => simp [dedupMergeAux]
    | cons x t => simp [dedupMergeAux]
  | succ fuel ih =>
    cases xs with
    | nil => simp [dedupMergeAux]
    | cons x t =>
      intro l hl
      simp only [dedupMergeAux, List.mem_cons] at hl
      rcases hl with rfl | hl
      · simp [hx x (by simp)]
      · exact ih (fun y hy => hx y (List.mem_cons_of_mem x (List.mem_of_mem_filter hy))) l hl

theorem dedupMergeAux_pairwise {fuel : Nat} {xs : List RLit} (hfuel : xs.length ≤ fuel) :
    (dedupMergeAux fuel xs).Pairwise (fun a b => a.bytes ≠ b.bytes) := by
  induction fuel generalizing xs with
  | zero =>
    cases xs with
    | nil => simp [dedupMergeAux]
    | cons x t => simp at hfuel
  | succ fuel ih =>
    cases xs with
    | nil => simp [dedupMergeAux]
    | cons x t =>
      simp only [dedupMergeAux, List.pairwise_cons]
      constructor
      · intro l hl
        obtain ⟨y, hy, hby⟩ := dedupMergeAux_bytes hl
        have := (List.mem_filter.mp hy).2
        simp only [Bool.not_eq_eq_eq_not, Bool.not_true, beq_eq_false_iff_ne] at this
        simp only [hby]
        exact fun hc => this (by rw [← hc])
      · exact ih (le_trans (List.length_filter_le _ t) (by simpa using hfuel))

theorem keep_first_length (n : Nat) (x : RLit) : (RLit.keep_first n x).bytes.length ≤ n := by
  unfold RLit.keep_first
  split
  · assumption
  · simp [List.length_take]

theorem keep_first_inexact (n : Nat) (x : RLit) (hx : x.exact = false) :
    (RLit.keep_first n x).exact = false := by
  unfold RLit.keep_first
  split
  · exact hx
  · rfl

theorem trim_dedup_td (s : RSeq) :
    ((s.keep_first_bytes DESIRED_ATOM_SIZE).dedup).TrimmedDeduped := by
  obtain ⟨ls⟩ := s
  cases ls with
  | none => exact trivial
  | some ls =>
    refine ⟨?_, ?_⟩
    · intro l hl
      obtain ⟨x, hx, hbx⟩ := dedupMergeAux_bytes hl
      simp only [List.mem_map] at hx
      obtain ⟨y, _, rfl⟩ := hx
      rw [hbx]
      exact keep_first_length _ y
    · exact dedupMergeAux_pairwise (le_refl _)

theorem make_inexact_all (s : RSeq) : (s.make_inexact).AllInexact := by
  obtain ⟨ls⟩ := s
  cases ls with
  | none => exact trivial
  | some ls =>
    intro l hl
    simp only [RSeq.make_inexact, List.mem_map] at hl
    obtain ⟨y, _, rfl⟩ := hl
    rfl

theorem keep_first_bytes_all {s : RSeq} (h : s.AllInexact) (n : Nat) :
    (s.keep_first_bytes n).AllInexact := by
  obtain ⟨ls⟩ := s
  cases ls with
  | none => exact trivial
  | some ls =>
    intro l hl
    simp only [RSeq.keep_first_bytes, Option.map_some, List.mem_map] at hl
    obtain ⟨y, hy, rfl⟩ := hl
    exact keep_first_inexact n y (h y hy)

theorem dedup_all {s : RSeq} (h : s.AllInexact) : s.dedup.AllInexact := by
  obtain ⟨ls⟩ := s
  cases ls with
  | none => exact trivial
  | some ls =>
    intro l hl
    exact dedupMergeAux_inexact h l hl

theorem commonPfx_length_le_left (a b : List Nat) : (commonPfx a b).length ≤ a.length := by
  induction a generalizing b with
  | nil => cases b <;> simp [commonPfx]
  | cons x as ih =>
    cases b with
    | nil => simp [commonPfx]
    | cons y bs =>
      simp only [commonPfx]
      split
      · simpa using ih bs
      · simp

theorem foldl_commonPfx_length (t : List RLit) (p : List Nat) :
    (t.foldl (fun p y => commonPfx p y.bytes) p).length ≤ p.length := by
  induction t generalizing p with
  | nil => simp
  | cons y t ih =>
    simp only [List.foldl_cons]
    exact le_trans (ih (commonPfx p y.bytes)) (commonPfx_length_le_left p y.bytes)

theorem lcp_length_bound {s : RSeq} {p : List Nat} {ls : List RLit}
    (hp : RSeq.longest_common_pfx s = some p) (hls : s.lits = some ls) :
    ∃ x ∈ ls, p.length ≤ x.bytes.length := by
  obtain ⟨lo⟩ := s
  obtain rfl : lo = some ls := hls
  cases ls with
  | nil => simp [RSeq.longest_common_pfx] at hp
  | cons x t =>
    refine ⟨x, by simp, ?_⟩
    obtain rfl : t.foldl (fun p y => commonPfx p y.bytes) x.bytes = p := by
      simpa [RSeq.longest_common_pfx] using hp
    exact foldl_commonPfx_length t x.bytes

theorem simplify_seq_cases (s : RSeq) :
    simplify_seq s = s ∨
    ∃ p maxLen, s.len = some 256 ∧ s.max_literal_len = some maxLen ∧ 1 < maxLen ∧
      RSeq.longest_common_pfx s = some p ∧ p.length = maxLen - 1 ∧
      simplify_seq s = RSeq.singleton ⟨p, false⟩ := by
  unfold simplify_seq
  split
  · split
    · split
      · split
        · split
          · right
            exact ⟨_, _, by assumption, by assumption, by assumption, by assumption,
              by assumption, rfl⟩
          · left; rfl
        · left; rfl
      · left; rfl
    · left; rfl
  · left; rfl

theorem simplify_td {s : RSeq} (h : s.TrimmedDeduped) : (simplify_seq s).TrimmedDeduped := by
  rcases simplify_seq_cases s with heq | ⟨p, maxLen, h256, hml, hgt, hlcp, hplen, heq⟩
  · rw [heq]; exact h
  · rw [heq]
    obtain ⟨lo⟩ := s
    cases lo with
    | none => simp [RSeq.len] at h256
    | some ls =>
      obtain ⟨x, hx, hlx⟩ := lcp_length_bound hlcp rfl
      refine ⟨?_, by simp [RSeq.singleton]⟩
      intro l hl
      obtain rfl : l = (⟨p, false⟩ : RLit) := by simpa [RSeq.singleton] using hl
      exact le_trans hlx (h.1 x hx)

theorem simplify_all {s : RSeq} (h : s.AllInexact) : (simplify_seq s).AllInexact := by
  rcases simplify_seq_cases s with heq | ⟨p, maxLen, h256, hml, hgt, hlcp, hplen, heq⟩
  · rw [heq]; exact h
  · rw [heq]
    intro l hl
    obtain rfl : l = (⟨p, false⟩ : RLit) := by simpa [RSeq.singleton] using hl
    rfl

/-- C5 amended: the trimming and deduplication happen once, after the
cross-product loop, not after each cross step; consequently, whenever
`concat_seq` returns a sequence, every literal of the returned sequence
has at most `DESIRED_ATOM_SIZE` bytes and no two returned literals share
the same bytes, and whenever at least one input sequence was not
incorporated into the cross product every returned literal is marked
inexact. -/
theorem claim_c5 (seqs : List RSeq) (r : RSeq) (h : concat_seq seqs = some r) :
    r.TrimmedDeduped ∧
    ((concatSeqLoop concatSeqInit 0 (seqs.take DESIRED_ATOM_SIZE)).2 < seqs.length →
      r.AllInexact) := by
  by_cases hb : concatSeqBail seqs = true
  · simp [concat_seq, hb] at h
  · simp only [concat_seq, hb, Bool.false_eq_true, if_false, Option.some.injEq] at h
    subst h
    constructor
    · exact simplify_td (trim_dedup_td _)
    · intro hlt
      rw [if_pos hlt]
      exact simplify_all (dedup_all (keep_first_bytes_all (make_inexact_all _) _))

/-- Witness for C5 at a concrete input: the empty slice, on which
`concat_seq` returns the initial singleton sequence. -/
theorem claim_c5_witness :
    concat_seq [] = some concatSeqInit ∧
    (RSeq.TrimmedDeduped concatSeqInit ∧
      ((concatSeqLoop concatSeqInit 0 (([] : List RSeq).take DESIRED_ATOM_SIZE)).2 <
          ([] : List RSeq).length →
        RSeq.AllInexact concatSeqInit)) :=
  ⟨by decide, claim_c5 [] concatSeqInit (by decide)⟩

/-- C5 counterexample: on the input `[{abc}, {def}]` (two exact
three-byte literals) the running result right after the second cross
step holds the six-byte literal `abcdef` — it is not trimmed to
`DESIRED_ATOM_SIZE` bytes, so the running result is not kept trimmed
after each cross step; only the final result (the four-byte `abcd`,
inexact because truncated) is. -/
theorem claim_c5_counterexample :
    concatSeqStates concatSeqInit [c5SeqA, c5SeqB] =
      [⟨some [⟨[1, 2, 3], true⟩]⟩, ⟨some [⟨[1, 2, 3, 4, 5, 6], true⟩]⟩] ∧
    ¬ RSeq.TrimmedDeduped ⟨some [⟨[1, 2, 3, 4, 5, 6], true⟩]⟩ ∧
    concat_seq [c5SeqA, c5SeqB] = some (RSeq.singleton ⟨[1, 2, 3, 4], false⟩) := by
  decide

theorem max_literal_len_of_len {s : RSeq} {n : Nat} (h : s.len = some n) (hn : n ≠ 0) :
    ∃ m, s.max_literal_len = some m := by
  obtain ⟨lo⟩ := s
  cases lo with
  | none => simp [RSeq.len] at h
  | some ls =>
    obtain rfl : ls.length = n := by simpa [RSeq.len] using h
    cases hm : (ls.map (fun x => x.bytes.length)).max? with
    | none =>
      rw [List.max?_eq_none_iff, List.map_eq_nil_iff] at hm
      subst hm
      simp at hn
    | some m => exact ⟨m, by simp [RSeq.max_literal_len, hm]⟩

/-- C6 amended: `concat_seq` returns `None` exactly when the input slice
is non-empty and its first sequence is infinite, or has exactly 256
literals with maximum literal length exactly 1 (a 256-literal first
sequence always has a defined maximum literal length, so the
`Some(1) | None` pattern of the source collapses to exactly 1); on every
other input, including the empty slice, it returns a sequence. -/
theorem claim_c6 (seqs : List RSeq) :
    concat_seq seqs = none ↔
      ∃ first rest, seqs = first :: rest ∧
        (first.len = none ∨ (first.len = some 256 ∧ first.max_literal_len = some 1)) := by
  constructor
  · intro h
    have hb : concatSeqBail seqs = true := by
      by_contra hb
      simp [concat_seq, hb] at h
    cases seqs with
    | nil => simp [concatSeqBail] at hb
    | cons first rest =>
      refine ⟨first, rest, rfl, ?_⟩
      rcases hlen : first.len with _ | n
      · left; rfl
      · right
        by_cases h256 : n = 256
        · subst h256
          have hor : ((first.max_literal_len == some 1) ||
              (first.max_literal_len == none)) = true := by
            simpa [concatSeqBail, hlen] using hb
          obtain ⟨m, hm⟩ := max_literal_len_of_len hlen (by norm_num)
          rcases Bool.or_eq_true_iff.mp hor with h1 | h2
          · exact ⟨rfl, beq_iff_eq.mp h1⟩
          · rw [hm] at h2
            simp at h2
        · exfalso
          simp [concatSeqBail, hlen, h256] at hb
  · rintro ⟨first, rest, rfl, hcond⟩
    have hb : concatSeqBail (first :: rest) = true := by
      rcases hcond with h1 | ⟨h1, h2⟩
      · simp [concatSeqBail, h1]
      · simp [concatSeqBail, h1, h2]
    simp [concat_seq, hb]

/-- C6 counterexample: a first sequence with 256 literals and maximum
literal length 0 (256 copies of the empty exact literal). Its maximum
literal length is at most 1, so the claim as stated demands `None`, yet
`concat_seq` proceeds and returns a sequence. -/
theorem claim_c6_counterexample :
    c6Seq.len = some 256 ∧ c6Seq.max_literal_len = some 0 ∧
    concat_seq [c6Seq] = some (RSeq.singleton ⟨[], true⟩) := by
  decide

theorem commonPfx_pfx_left (a b : List Nat) : commonPfx a b <+: a := by
  induction a generalizing b with
  | nil => cases b <;> simp [commonPfx]
  | cons x as ih =>
    cases b with
    | nil => simp [commonPfx]
    | cons y bs =>
      simp only [commonPfx]
      split
      · exact List.cons_prefix_cons.mpr ⟨rfl, ih bs⟩
      · exact List.nil_prefix

theorem commonPfx_pfx_right (a b : List Nat) : commonPfx a b <+: b := by
  induction a generalizing b with
  | nil => cases b <;> simp [commonPfx]
  | cons x as ih =>
    cases b with
    | nil => simp [commonPfx]
    | cons y bs =>
      simp only [commonPfx]
      split
      · next heq => exact List.cons_prefix_cons.mpr ⟨heq, ih bs⟩
      · exact List.nil_prefix

theorem foldl_commonPfx_pfx_init (t : List RLit) (p : List Nat) :
    t.foldl (fun p y => commonPfx p y.bytes) p <+: p := by
  induction t generalizing p with
  | nil => exact List.prefix_rfl
  | cons y t ih =>
    simp only [List.foldl_cons]
    exact (ih (commonPfx p y.bytes)).trans (commonPfx_pfx_left p y.bytes)

theorem foldl_commonPfx_pfx_mem (t : List RLit) (p : List Nat) (y : RLit) (hy : y ∈ t) :
    t.foldl (fun p y => commonPfx p y.bytes) p <+: y.bytes := by
  induction t generalizing p with
  | nil => simp at hy
  | cons z t ih =>
    simp only [List.foldl_cons]
    rcases List.mem_cons.mp hy with rfl | hy
    · exact (foldl_commonPfx_pfx_init t _).trans (commonPfx_pfx_right p y.bytes)
    · exact ih _ hy

/-- C7 amended: `simplify_seq` collapses its argument to a singleton
inexact literal holding the longest common prefix exactly when the
sequence has 256 literals, maximum literal length `maxLen > 1`, and the
LONGEST common prefix has length exactly `maxLen - 1` (that prefix is
indeed shared by every literal); in every other case — including
sequences whose literals share a prefix of length `maxLen - 1` while
their longest common prefix is longer — it returns the sequence
unchanged. -/
theorem claim_c7 :
    (∀ (seq : RSeq) (maxLen : Nat) (p : List Nat),
      seq.len = some 256 → seq.max_literal_len = some maxLen → 1 < maxLen →
      RSeq.longest_common_pfx seq = some p → p.length = maxLen - 1 →
      simplify_seq seq = RSeq.singleton ⟨p, false⟩ ∧
        ∀ ls, seq.lits = some ls → ∀ l ∈ ls, p <+: l.bytes) ∧
    (∀ seq : RSeq, simplifyTriggers seq = false → simplify_seq seq = seq) := by
  constructor
  · intro seq maxLen p h256 hml hgt hlcp hplen
    constructor
    · simp [simplify_seq, h256, hml, hgt, hlcp, hplen]
    · intro ls hls
      obtain ⟨lo⟩ := seq
      obtain rfl : lo = some ls := hls
      cases ls with
      | nil => simp [RSeq.longest_common_pfx] at hlcp
      | cons x t =>
        obtain rfl : t.foldl (fun p y => commonPfx p y.bytes) x.bytes = p := by
          simpa [RSeq.longest_common_pfx] using hlcp
        intro l hl
        rcases List.mem_cons.mp hl with rfl | hl
        · exact foldl_commonPfx_pfx_init t l.bytes
        · exact foldl_commonPfx_pfx_mem t x.bytes l hl
  · intro seq htrig
    rcases simplify_seq_cases seq with heq | ⟨p, maxLen, h256, hml, hgt, hlcp, hplen, heq⟩
    · exact heq
    · exfalso
      simp [simplifyTriggers, h256, hml, hlcp, hgt, hplen] at htrig

/-- Witness for C7 at a concrete input: 256 distinct two-byte literals
`[9, i]` whose longest common prefix `[9]` has length `maxLen - 1`. -/
theorem claim_c7_witness :
    (c7GoodSeq.len = some 256 ∧ c7GoodSeq.max_literal_len = some 2 ∧ (1 : Nat) < 2 ∧
      RSeq.longest_common_pfx c7GoodSeq = some [9] ∧ ([9] : List Nat).length = 2 - 1) ∧
    (simplify_seq c7GoodSeq = RSeq.singleton ⟨[9], false⟩ ∧
      ∀ ls, c7GoodSeq.lits = some ls → ∀ l ∈ ls, [9] <+: l.bytes) :=
  ⟨⟨by decide, by decide, by decide, by decide, by decide⟩,
    claim_c7.1 c7GoodSeq 2 [9] (by decide) (by decide) (by decide) (by decide) (by decide)⟩

/-- C7 counterexample: 256 identical literals `[1, 2]`. Every literal
shares the prefix `[1]` of length `max_len - 1 = 1` and `max_len = 2 > 1`,
so the claim as stated demands the collapse to the singleton inexact
`[1]`; but the longest common prefix is `[1, 2]` itself, whose length is
not `max_len - 1`, and `simplify_seq` returns the sequence unchanged. -/
theorem claim_c7_counterexample :
    c7Seq.len = some 256 ∧ c7Seq.max_literal_len = some 2 ∧
    (List.replicate 256 (⟨[1, 2], true⟩ : RLit)).all
      (fun l => ([1] : List Nat).isPrefixOf l.bytes) = true ∧
    ([1] : List Nat).length = 2 - 1 ∧
    simplify_seq c7Seq = c7Seq ∧
    c7Seq ≠ RSeq.singleton ⟨[1], false⟩ := by
  decide

theorem stackSim_refl : ∀ s : List RegexpAtoms, StackSim s s
  | [] => trivial
  | _ :: s => ⟨⟨rfl, rfl, rfl⟩, stackSim_refl s⟩

theorem stackSim_trans : ∀ {s t u : List RegexpAtoms},
    StackSim s t → StackSim t u → StackSim s u
  | [], [], [], _, _ => trivial
  | _ :: _, _ :: _, _ :: _, ⟨hf1, hs1⟩, ⟨hf2, hs2⟩ =>
    ⟨⟨hf1.1.trans hf2.1, hf1.2.1.trans hf2.2.1, hf1.2.2.trans hf2.2.2⟩,
      stackSim_trans hs1 hs2⟩
  | [], [], _ :: _, _, h => h.elim
  | [], _ :: _, _, h, _ => h.elim
  | _ :: _, [], _, h, _ => h.elim
  | _ :: _, _ :: _, [], _, h => h.elim

theorem stackSim_wf : ∀ {s t : List RegexpAtoms}, StackSim s t → StackWF s → StackWF t
  | [], [], _, _ => fun f hf => absurd hf (by simp)
  | f :: s, g :: t, ⟨hf, hs⟩, hwf => by
    intro x hx
    rcases List.mem_cons.mp hx with rfl | hx
    · rw [← hf.2.1]
      exact hwf f (by simp)
    · exact stackSim_wf hs (fun y hy => hwf y (List.mem_cons_of_mem f hy)) x hx
  | [], _ :: _, h, _ => h.elim
  | _ :: _, [], h, _ => h.elim

theorem stackSim_append_left (c : List RegexpAtoms) :
    ∀ {s t : List RegexpAtoms}, StackSim s t → StackSim (c ++ s) (c ++ t) := by
  induction c with
  | nil => intro s t h; simpa using h
  | cons f c ih => intro s t h; exact ⟨⟨rfl, rfl, rfl⟩, ih h⟩

theorem stackSim_take : ∀ (n : Nat) {s t : List RegexpAtoms},
    StackSim s t → StackSim (s.take n) (t.take n)
  | 0, _, _, _ => trivial
  | _ + 1, [], [], _ => trivial
  | n + 1, _ :: _, _ :: _, ⟨hf, hs⟩ => ⟨hf, stackSim_take n hs⟩
  | _ + 1, [], _ :: _, h => h.elim
  | _ + 1, _ :: _, [], h => h.elim

theorem stackSim_drop : ∀ (n : Nat) {s t : List RegexpAtoms},
    StackSim s t → StackSim (s.drop n) (t.drop n)
  | 0, _, _, h => h
  | _ + 1, [], [], _ => trivial
  | n + 1, _ :: _, _ :: _, ⟨_, hs⟩ => stackSim_drop n hs
  | _ + 1, [], _ :: _, h => h.elim
  | _ + 1, _ :: _, [], h => h.elim

theorem stackSim_mapTop (g : Location → Location) :
    ∀ s : List RegexpAtoms, StackSim s (mapTopFrame g s)
  | [] => trivial
  | f :: rest =>
    ⟨⟨by simp only [List.map_map]; rfl, rfl, rfl⟩, stackSim_refl rest⟩

theorem stackSim_replicate_empty :
    ∀ {k : Nat} {l : List RegexpAtoms},
      StackSim (List.replicate k RegexpAtoms.empty) l →
      ∀ f ∈ l, f.atoms = [] ∧ f.min_quality = i32Min := by
  intro k
  induction k with
  | zero =>
    intro l h f hf
    cases l with
    | nil => simp at hf
    | cons g t => exact h.elim
  | succ k ih =>
    intro l h f hf
    cases l with
    | nil => exact h.elim
    | cons g t =>
      rw [List.replicate_succ] at h
      obtain ⟨hf1, hs⟩ := h
      rcases List.mem_cons.mp hf with rfl | hf
      · refine ⟨?_, hf1.2.1.symm⟩
        have h0 : f.atoms.map (fun ra => ra.atom) = ([] : List Atom) := hf1.1.symm
        exact List.map_eq_nil_iff.mp h0
      · exact ih hs f hf

theorem reduceFrames_emptyLike :
    ∀ (t : List RegexpAtoms) (h : RegexpAtoms),
      h.atoms = [] → h.min_quality = i32Min →
      (∀ f ∈ t, f.atoms = [] ∧ f.min_quality = i32Min) →
      (reduceFrames h t).atoms = [] ∧ (reduceFrames h t).min_quality = i32Min := by
  intro t
  induction t with
  | nil => intro h ha hm _; exact ⟨ha, hm⟩
  | cons f t ih =>
    intro h ha hm hall
    simp only [reduceFrames]
    exact ih _ (by simp [ha, (hall f (by simp)).1])
      (by simp [hm, (hall f (by simp)).2]) (fun g hg => hall g (List.mem_cons_of_mem f hg))

theorem altPostFrames_noop {n : Nat} {stack : List RegexpAtoms}
    (hn : ∀ f ∈ stack.take n, f.atoms = [] ∧ f.min_quality = i32Min)
    (hwf : StackWF (stack.drop n)) :
    altPostFrames n stack = stack.drop n := by
  unfold altPostFrames
  split
  · next h t parent below hrev hdrop =>
    have hall : ∀ f ∈ h :: t, f.atoms = [] ∧ f.min_quality = i32Min := by
      intro f hf
      apply hn
      rw [show stack.take n = (stack.take n).reverse.reverse from (List.reverse_reverse _).symm,
        hrev, List.mem_reverse]
      exact hf
    obtain ⟨hre, hrm⟩ := reduceFrames_emptyLike t h (hall h (by simp)).1
      (hall h (by simp)).2 (fun f hf => hall f (List.mem_cons_of_mem _ hf))
    have hparent : i32Min ≤ parent.min_quality := by
      apply hwf
      rw [hdrop]
      simp
    rw [hdrop]
    simp only [altReduceReplace]
    rw [if_neg]
    rintro ⟨_, hlt⟩
    rw [hrm] at hlt
    exact absurd hlt (not_lt.mpr hparent)
  · next hmatch => rfl

theorem guardRollup_zrd_pos (o : PostOracle) (hasLk : Bool) (st : WSt)
    (hz : 0 < st.zrd) :
    guardRollup o hasLk st = { st with ctr := st.ctr + 1 } := by
  unfold guardRollup
  rw [if_pos hz]

theorem replicate_append_cons (k : Nat) (a : RegexpAtoms) (l : List RegexpAtoms) :
    List.replicate k a ++ a :: l = List.replicate (k + 1) a ++ l := by
  rw [List.replicate_succ', List.append_assoc]
  rfl

theorem guardRollup_pres (o : PostOracle) (hasLk : Bool) (st : WSt) (hz : 0 < st.zrd) :
    (guardRollup o hasLk st).zrd = st.zrd ∧ (guardRollup o hasLk st).depth = st.depth ∧
    (guardRollup o hasLk st).stack = st.stack := by
  unfold guardRollup
  rw [if_pos hz]
  exact ⟨rfl, rfl, rfl⟩

mutual

theorem walkPres (o : PostOracle) : ∀ (h : MHir) (st : WSt), 0 < st.zrd →
    StackWF st.stack →
    (walk o h st).zrd = st.zrd ∧ (walk o h st).depth = st.depth ∧
      StackSim st.stack (walk o h st).stack
  | .leaf lk, st, hz, _ => by
    simp only [walk]
    obtain ⟨hg1, hg2, hg3⟩ :=
      guardRollup_pres o lk ⟨st.stack, st.zrd, st.depth + 1 - 1, st.ctr⟩ hz
    refine ⟨hg1, ?_, ?_⟩
    · rw [hg2]; simp
    · rw [hg3]; exact stackSim_refl _
  | .capture c, st, hz, hwf => by
    simp only [walk]
    have ih := walkPres o c ⟨st.stack, st.zrd, st.depth + 1, st.ctr⟩ hz hwf
    set st2 := walk o c ⟨st.stack, st.zrd, st.depth + 1, st.ctr⟩ with hst2
    obtain ⟨hg1, hg2, hg3⟩ := guardRollup_pres o c.hasLook
      ⟨st2.stack, st2.zrd, st2.depth - 1, st2.ctr⟩ (by simpa using ih.1 ▸ hz)
    refine ⟨?_, ?_, ?_⟩
    · rw [hg1]; exact ih.1
    · rw [hg2]; simp only [ih.2.1]; simp
    · rw [hg3]; exact ih.2.2
  | .concat cs, st, hz, hwf => by
    simp only [walk]
    have ih := walkSeqPres o cs ⟨st.stack, st.zrd, st.depth + 1, st.ctr⟩ hz hwf
    set st2 := walkSeq o cs ⟨st.stack, st.zrd, st.depth + 1, st.ctr⟩ with hst2
    obtain ⟨hg1, hg2, hg3⟩ := guardRollup_pres o (MHir.anyLook cs)
      ⟨mapTopFrame (o.reloc st2.ctr) st2.stack, st2.zrd, st2.depth - 1, st2.ctr⟩
      (by simpa using ih.1 ▸ hz)
    refine ⟨?_, ?_, ?_⟩
    · rw [hg1]; exact ih.1
    · rw [hg2]; simp only [ih.2.1]; simp
    · rw [hg3]; exact stackSim_trans ih.2.2 (stackSim_mapTop _ _)
  | .alternation c cs, st, hz, hwf => by
    simp only [walk]
    have hwf1 : StackWF (RegexpAtoms.empty :: st.stack) := by
      intro f hf
      rcases List.mem_cons.mp hf with rfl | hf
      · exact le_refl _
      · exact hwf f hf
    have ih1 := walkPres o c ⟨RegexpAtoms.empty :: st.stack, st.zrd, st.depth + 1, st.ctr⟩
      hz hwf1
    set st2 := walk o c ⟨RegexpAtoms.empty :: st.stack, st.zrd, st.depth + 1, st.ctr⟩
      with hst2
    have hwf2 := stackSim_wf ih1.2.2 hwf1
    have ih2 := walkAltsPres o cs st2 (by rw [ih1.1]; exact hz) hwf2
    set st3 := walkAlts o cs st2 with hst3
    have hsim : StackSim (List.replicate (cs.length + 1) RegexpAtoms.empty ++ st.stack)
        st3.stack := by
      rw [← replicate_append_cons]
      exact stackSim_trans (stackSim_append_left _ ih1.2.2) ih2.2.2
    have htake : ∀ f ∈ st3.stack.take (cs.length + 1),
        f.atoms = [] ∧ f.min_quality = i32Min := by
      apply stackSim_replicate_empty (k := cs.length + 1)
      have h1 := stackSim_take (cs.length + 1) hsim
      have h2 : (List.replicate (cs.length + 1) RegexpAtoms.empty ++ st.stack).take
          (cs.length + 1) = List.replicate (cs.length + 1) RegexpAtoms.empty := by
        have h3 := List.take_left (List.replicate (cs.length + 1) RegexpAtoms.empty) st.stack
        simpa using h3
      rwa [h2] at h1
    have hdropSim : StackSim st.stack (st3.stack.drop (cs.length + 1)) := by
      have h1 := stackSim_drop (cs.length + 1) hsim
      have h2 : (List.replicate (cs.length + 1) RegexpAtoms.empty ++ st.stack).drop
          (cs.length + 1) = st.stack := by
        have h3 := List.drop_left (List.replicate (cs.length + 1) RegexpAtoms.empty) st.stack
        simpa using h3
      rwa [h2] at h1
    have hnoop := altPostFrames_noop (n := cs.length + 1) htake (stackSim_wf hdropSim hwf)
    obtain ⟨hg1, hg2, hg3⟩ := guardRollup_pres o (c.hasLook || MHir.anyLook cs)
      ⟨altPostFrames (cs.length + 1) st3.stack, st3.zrd, st3.depth - 1, st3.ctr⟩
      (by simp only []; rw [ih2.1, ih1.1]; exact hz)
    refine ⟨?_, ?_, ?_⟩
    · rw [hg1]; rw [ih2.1, ih1.1]
    · rw [hg2]; simp only [ih2.2.1, ih1.2.1]; simp
    · rw [hg3]
      show StackSim st.stack (altPostFrames (cs.length + 1) st3.stack)
      rw [hnoop]
      exact hdropSim
  | .repetition zm adj c, st, hz, hwf => by
    simp only [walk]
    have hz1 : 0 < (if zm then st.zrd + 1 else st.zrd) := by
      cases zm
      · simpa using hz
      · simp
    have ih := walkPres o c ⟨st.stack, if zm then st.zrd + 1 else st.zrd,
      st.depth + 1, st.ctr⟩ hz1 hwf
    set st2 := walk o c ⟨st.stack, if zm then st.zrd + 1 else st.zrd,
      st.depth + 1, st.ctr⟩ with hst2
    have hz4 : 0 < (if zm then st2.zrd - 1 else st2.zrd) := by
      rw [ih.1]
      cases zm
      · simpa using hz
      · simpa using hz
    obtain ⟨hg1, hg2, hg3⟩ := guardRollup_pres o c.hasLook
      ⟨if adj then mapTopFrame (o.reloc st2.ctr) st2.stack else st2.stack,
        if zm then st2.zrd - 1 else st2.zrd, st2.depth - 1, st2.ctr⟩ hz4
    refine ⟨?_, ?_, ?_⟩
    · rw [hg1]
      show (if zm then st2.zrd - 1 else st2.zrd) = st.zrd
      rw [ih.1]
      cases zm
      · simp
      · simp
    · rw [hg2]
      show st2.depth - 1 = st.depth
      rw [ih.2.1]
      simp
    · rw [hg3]
      show StackSim st.stack (if adj then mapTopFrame (o.reloc st2.ctr) st2.stack
        else st2.stack)
      cases adj
      · simpa using ih.2.2
      · simpa using stackSim_trans ih.2.2 (stackSim_mapTop _ _)

theorem walkSeqPres (o : PostOracle) : ∀ (cs : List MHir) (st : WSt), 0 < st.zrd →
    StackWF st.stack →
    (walkSeq o cs st).zrd = st.zrd ∧ (walkSeq o cs st).depth = st.depth ∧
      StackSim st.stack (walkSeq o cs st).stack
  | [], st, _, _ => ⟨rfl, rfl, stackSim_refl _⟩
  | c :: t, st, hz, hwf => by
    simp only [walkSeq]
    have ih1 := walkPres o c st hz hwf
    have ih2 := walkSeqPres o t (walk o c st) (by rw [ih1.1]; exact hz)
      (stackSim_wf ih1.2.2 hwf)
    exact ⟨ih2.1.trans ih1.1, ih2.2.1.trans ih1.2.1, stackSim_trans ih1.2.2 ih2.2.2⟩

theorem walkAltsPres (o : PostOracle) : ∀ (cs : List MHir) (st : WSt), 0 < st.zrd →
    StackWF st.stack →
    (walkAlts o cs st).zrd = st.zrd ∧ (walkAlts o cs st).depth = st.depth ∧
      StackSim (List.replicate cs.length RegexpAtoms.empty ++ st.stack)
        (walkAlts o cs st).stack
  | [], st, _, _ => ⟨rfl, rfl, by simpa using stackSim_refl st.stack⟩
  | c :: t, st, hz, hwf => by
    simp only [walkAlts]
    have hwf1 : StackWF (RegexpAtoms.empty :: st.stack) := by
      intro f hf
      rcases List.mem_cons.mp hf with rfl | hf
      · exact le_refl _
      · exact hwf f hf
    have ih1 := walkPres o c { st with stack := RegexpAtoms.empty :: st.stack } hz hwf1
    have ih2 := walkAltsPres o t (walk o c { st with stack := RegexpAtoms.empty :: st.stack })
      (by rw [ih1.1]; exact hz) (stackSim_wf ih1.2.2 hwf1)
    refine ⟨by rw [ih2.1]; exact ih1.1, by rw [ih2.2.1]; exact ih1.2.1, ?_⟩
    have hstep : StackSim (List.replicate t.length RegexpAtoms.empty ++
        (RegexpAtoms.empty :: st.stack))
        (walkAlts o t (walk o c { st with stack := RegexpAtoms.empty :: st.stack })).stack :=
      stackSim_trans (stackSim_append_left _ ih1.2.2) ih2.2.2
    rw [replicate_append_cons t.length RegexpAtoms.empty st.stack] at hstep
    simpa using hstep

end

/-- C10: for every node post-visited strictly inside a repetition whose
minimum count is 0 — equivalently, whenever the `zero_rep_depth` value
read by the roll-up guard of `visit_post` is positive (a zero-min
repetition node reads the counter after its own decrement) — `visit_post`
performs its code emission and location bookkeeping but returns before
the atoms roll-up.  Across the whole visit of such a subtree, for every
behaviour of the node compilers and of the location fix-ups (the
oracle): `zero_rep_depth` and `depth` are restored, `best_atoms_stack`
has the same frames with the same atom payloads, `min_quality` and
`exact_atoms` (only atom code locations may be rewritten by the
bookkeeping) — so no atom extracted from such a node is ever added to
any frame and the top frame is never replaced by such a node's atoms. -/
theorem claim_c10 (o : PostOracle) (h : MHir) (st : WSt) (hz : 0 < st.zrd)
    (hwf : StackWF st.stack) :
    (walk o h st).zrd = st.zrd ∧ (walk o h st).depth = st.depth ∧
      StackSim st.stack (walk o h st).stack :=
  walkPres o h st hz hwf

/-- Witness for C10 at a concrete state: one literal node visited with
`zero_rep_depth = 1` (inside `(...)*`), one empty frame on the stack, and
the oracle that extracts nothing. -/
theorem claim_c10_witness :
    0 < (⟨[RegexpAtoms.empty], 1, 1, 0⟩ : WSt).zrd ∧
    StackWF (⟨[RegexpAtoms.empty], 1, 1, 0⟩ : WSt).stack ∧
    ((walk trivOracle (.leaf false) ⟨[RegexpAtoms.empty], 1, 1, 0⟩).zrd =
        (⟨[RegexpAtoms.empty], 1, 1, 0⟩ : WSt).zrd ∧
      (walk trivOracle (.leaf false) ⟨[RegexpAtoms.empty], 1, 1, 0⟩).depth =
        (⟨[RegexpAtoms.empty], 1, 1, 0⟩ : WSt).depth ∧
      StackSim (⟨[RegexpAtoms.empty], 1, 1, 0⟩ : WSt).stack
        (walk trivOracle (.leaf false) ⟨[RegexpAtoms.empty], 1, 1, 0⟩).stack) :=
  ⟨by decide, by decide,
    claim_c10 trivOracle (.leaf false) ⟨[RegexpAtoms.empty], 1, 1, 0⟩ (by decide) (by decide)⟩
